import Mathlib

/-!
Verification development for the Arrow consensus pipeline
(`GenomicConsensus/arrow/arrow.py`).

We shallowly embed the data model and the operations of
`consensusAndVariantsForWindow`, `ArrowWorker.onChunk` and `configure`.
Collaborator code that lives outside the embedded file (the interval
partitioner `kSpannedIntervals`, the gap computation `holes`, the
consensus stitcher `join`, the no-call constructor, the diploid cleanup,
the enlarged-window helper) is modelled from the specification, as
documented on each definition.  Opaque external services (read access,
the consensus engine, the aligner) are parameters of the embedding,
bundled in an `Env` structure.
-/

/-- Coverage at a reference position: the number of reads whose
half-open span `[start, end)` contains the position.  The read spans are
given as parallel lists of start and end coordinates, mirroring the
`starts`/`ends` arrays built at arrow.py lines 45-46. -/
def coverageAt (starts ends : List Nat) (x : Nat) : Nat :=
  (List.zip starts ends).countP (fun p => decide (p.1 ≤ x ∧ x < p.2))

/-- Predicate for a position having coverage at least `k`. -/
def covOK (k : Nat) (starts ends : List Nat) (x : Nat) : Bool :=
  decide (k ≤ coverageAt starts ends x)

/-- Maximal runs of positions satisfying `p`, scanned left to right from
`cur` for `fuel` positions.  The optional `st` records the start of the
run currently being scanned.  This is the event-sweep of the interval
partitioner. -/
def runsFrom (p : Nat → Bool) : Nat → Nat → Option Nat → List (Nat × Nat)
  | _cur, 0, none => []
  | cur, 0, some st => [(st, cur)]
  | cur, fuel+1, none =>
      if p cur then runsFrom p (cur+1) fuel (some cur)
      else runsFrom p (cur+1) fuel none
  | cur, fuel+1, some st =>
      if p cur then runsFrom p (cur+1) fuel (some st)
      else (st, cur) :: runsFrom p (cur+1) fuel none

/-- Modelled from the spec: `kSpannedIntervals` of `GenomicConsensus.windows`
is not part of the embedded file; the spec describes it as an event sweep
finding maximal runs where instantaneous coverage is at least
`minCoverage`, discarding runs shorter than `minLength`. -/
def kSpannedIntervals (s e k minLength : Nat) (starts ends : List Nat) :
    List (Nat × Nat) :=
  (runsFrom (covOK k starts ends) s (e - s) none).filter
    (fun iv => decide (minLength ≤ iv.2 - iv.1))

/-- Gap intervals of the window `[cur, e)` not covered by the ordered
interval list. -/
def holesAux (e : Nat) : Nat → List (Nat × Nat) → List (Nat × Nat)
  | cur, [] => if cur < e then [(cur, e)] else []
  | cur, (a, b) :: r => (if cur < a then [(cur, a)] else []) ++ holesAux e b r

/-- Modelled from the spec: `holes` of `GenomicConsensus.windows` is not
part of the embedded file; the spec describes it as the complementary gap
intervals covering the rest of the window. -/
def holes (s e : Nat) (ivs : List (Nat × Nat)) : List (Nat × Nat) :=
  holesAux e s ivs

/-- Lexicographic comparison on coordinate pairs, the order Python's
`sorted` uses on tuples (arrow.py line 50). -/
def lexLe (a b : Nat × Nat) : Bool :=
  decide (a.1 < b.1 ∨ (a.1 = b.1 ∧ a.2 ≤ b.2))

/-- Python `sorted` on a list of coordinate pairs. -/
def pySorted (l : List (Nat × Nat)) : List (Nat × Nat) :=
  l.mergeSort lexLe

/-- Interval list used by `consensusAndVariantsForWindow`: with fancy
chunking, the k-spanned intervals plus the complementary coverage gaps,
merged and sorted by start (arrow.py lines 36-56); without it, the whole
window as a single interval. -/
def allIntervalsForWindow (fancy : Bool) (s e k : Nat)
    (starts ends : List Nat) : List (Nat × Nat) :=
  if fancy then
    let ivs := kSpannedIntervals s e k 10 starts ends
    pySorted (ivs ++ holes s e ivs)
  else
    [(s, e)]

/-- Python slice `l[s:e]` on a list (non-negative indices). -/
def pySlice {α : Type} (l : List α) (s e : Nat) : List α :=
  (l.take e).drop s

/-- Read alignment record: target start and end of the aligned span. -/
structure Aln where
  tStart : Nat
  tEnd : Nat
deriving DecidableEq

/-- Clipping of a read to an interval (`aln.clippedTo`, arrow.py line 75). -/
def clippedTo (s e : Nat) (a : Aln) : Aln :=
  ⟨max a.tStart s, min a.tEnd e⟩

/-- Test that a read fully spans the half-open reference range
(`spansReferenceRange`, arrow.py line 79). -/
def spansReferenceRange (s e : Nat) (a : Aln) : Bool :=
  decide (a.tStart ≤ s ∧ e ≤ a.tEnd)

/-- No-evidence consensus policy, the values of the
`noEvidenceConsensusCall` option. -/
inductive NoEvidencePolicy
  | nocall
  | reference
  | lowercasereference
deriving DecidableEq

/-- Consensus object: a window plus a sequence with per-base confidence. -/
structure Consensus where
  winId : Nat
  winStart : Nat
  winEnd : Nat
  sequence : List Char
  confidence : List Nat
deriving DecidableEq

/-- Modelled from the spec: the placeholder sequence of a no-call
consensus, selected by policy: a run of no-call symbols, a reference
copy, or a lowercased reference copy. -/
def noCallSequence (policy : NoEvidencePolicy) (len : Nat)
    (refSeq : List Char) : List Char :=
  match policy with
  | .nocall => List.replicate len 'N'
  | .reference => refSeq
  | .lowercasereference => refSeq.map Char.toLower

/-- Modelled from the spec: `ArrowConsensus.noCallConsensus` of
`GenomicConsensus.consensus` is not part of the embedded file; the spec
describes it as a placeholder sequence with zero confidence spanning the
interval. -/
def noCallConsensus (policy : NoEvidencePolicy) (winId s e : Nat)
    (refSeq : List Char) : Consensus :=
  let sq := noCallSequence policy (e - s) refSeq
  ⟨winId, s, e, sq, List.replicate sq.length 0⟩

/-- Variant record; only the reference coordinates matter for the
properties below. -/
structure Variant where
  refStart : Nat
  refEnd : Nat
deriving DecidableEq

/-- Arrow algorithm configuration, as built by `configure`
(arrow.py lines 244-253) plus the `minPoaCoverage` model default. -/
structure ArrowConfig where
  minMapQV : Nat
  noEvidenceConsensus : NoEvidencePolicy
  computeConfidence : Bool
  minReadScore : Nat
  minHqRegionSnr : Nat
  minZScore : Int
  minAccuracy : Nat
  maskRadius : Nat
  maskErrorRate : Nat
  polishDiploid : Bool
  minPoaCoverage : Nat
deriving DecidableEq

/-- IUPAC multi-allele ambiguity codes (upper and lower case); `N` is the
no-call symbol, not an ambiguity code in this sense. -/
def ambigChars : List Char :=
  ['R', 'Y', 'S', 'W', 'K', 'M', 'B', 'D', 'H', 'V',
   'r', 'y', 's', 'w', 'k', 'm', 'b', 'd', 'h', 'v']

/-- Test for an IUPAC ambiguity code. -/
def isAmbig (c : Char) : Bool :=
  ambigChars.contains c

/-- Representative base for an ambiguity code (first base of its set);
other characters unchanged. -/
def repBase (c : Char) : Char :=
  if c = 'R' then 'A' else if c = 'Y' then 'C' else if c = 'S' then 'C'
  else if c = 'W' then 'A' else if c = 'K' then 'G' else if c = 'M' then 'A'
  else if c = 'B' then 'C' else if c = 'D' then 'A' else if c = 'H' then 'A'
  else if c = 'V' then 'A' else if c = 'r' then 'a' else if c = 'y' then 'c'
  else if c = 's' then 'c' else if c = 'w' then 'a' else if c = 'k' then 'g'
  else if c = 'm' then 'a' else if c = 'b' then 'c' else if c = 'd' then 'a'
  else if c = 'h' then 'a' else if c = 'v' then 'a' else c

/-- Modelled from the spec: the diploid cleanup performed inside
`variantsFromConsensus` of `GenomicConsensus.arrow.utils` is not part of
the embedded file; the spec describes it as replacing each ambiguous
IUPAC base by a single representative base. -/
def cleanSeq (s : List Char) : List Char :=
  s.map (fun c => if isAmbig c then repBase c else c)

/-- Opaque collaborators of the pipeline: reference access, read access,
the read filter, the consensus engine, the variant caller and the
target-to-query position mapping of the aligner. -/
structure Env where
  contig : Nat → List Char
  readsInWindow : Nat → Nat → Nat → List Aln
  filterAlns : Nat → Nat → Nat → List Aln → List Aln
  engine : Nat → Nat → Nat → List Char → List Aln → List Char × List Nat
  varCall : Nat → Nat → Nat → List Char → List Char → List Nat → List Variant
  tqp : List Char → List Char → List Nat

/-- Reads pulled for a sub-window, clipped to its interval and filtered
(arrow.py lines 69-76). -/
def clippedReads (env : Env) (winId s e : Nat) : List Aln :=
  env.filterAlns winId s e ((env.readsInWindow winId s e).map (clippedTo s e))

/-- Count of filtered reads that fully span the interval
(arrow.py lines 78-79). -/
def spanningCount (env : Env) (winId s e : Nat) : Nat :=
  ((clippedReads env winId s e).filter (spansReferenceRange s e)).length

/-- Per-interval step of `consensusAndVariantsForWindow`
(arrow.py lines 63-116): real consensus when enough spanning reads,
otherwise a no-call consensus.  The boolean records whether the
consensus engine was invoked. -/
def processInterval (env : Env) (cfg : ArrowConfig) (winId : Nat)
    (contig : List Char) : Nat × Nat → Consensus × List Variant × Bool
  | (s, e) =>
  let intRefSeq := pySlice contig s e
  if cfg.minPoaCoverage ≤ spanningCount env winId s e then
    let ec := env.engine winId s e intRefSeq (clippedReads env winId s e)
    let vars := env.varCall winId s e intRefSeq ec.1 ec.2
    let finalSeq := if cfg.polishDiploid then cleanSeq ec.1 else ec.1
    (⟨winId, s, e, finalSeq, ec.2⟩, vars, true)
  else
    (noCallConsensus cfg.noEvidenceConsensus winId s e intRefSeq, [], false)

/-- Binary stitching step of `join`. -/
def joinStep (a b : Consensus) : Consensus :=
  ⟨a.winId, min a.winStart b.winStart, max a.winEnd b.winEnd,
   a.sequence ++ b.sequence, a.confidence ++ b.confidence⟩

/-- Modelled from the spec: `join` of `GenomicConsensus.consensus` is not
part of the embedded file; the spec describes it as concatenating the
sequences and confidence arrays in interval order, the window being the
min-start/max-end of the inputs. -/
def join : List Consensus → Consensus
  | [] => ⟨0, 0, 0, [], []⟩
  | c :: cs => cs.foldl joinStep c

/-- High-level window routine (arrow.py lines 21-123): build the interval
tiling, process each interval, stitch the sub-consensi and concatenate
the variants.  The final component counts consensus-engine invocations. -/
def consensusAndVariantsForWindow (env : Env) (cfg : ArrowConfig)
    (fancy : Bool) (winId wS wE : Nat) (contig : List Char) :
    Consensus × List Variant × Nat :=
  let hits := env.readsInWindow winId wS wE
  let ivs := allIntervalsForWindow fancy wS wE cfg.minPoaCoverage
    (hits.map Aln.tStart) (hits.map Aln.tEnd)
  let results := ivs.map (processInterval env cfg winId contig)
  (join (results.map Prod.fst),
   results.flatMap (fun r => r.2.1),
   (results.filter (fun r => r.2.2)).length)

/-- Modelled from the spec: `reference.enlargedReferenceWindow` of
`GenomicConsensus.reference` is not part of the embedded file; the spec
describes it as widening the window by a fixed overlap margin, clamped
to the contig bounds. -/
def enlargedWindow (overlap contigLen s e : Nat) : Nat × Nat :=
  (s - overlap, min (e + overlap) contigLen)

/-- Coordinate remap of `onChunk` (arrow.py lines 166-174): look up the
consensus offsets of the target boundaries in the target-to-query
position mapping `tp`, slice the consensus sequence and confidence
there, and keep only variants starting inside the target window.
Returns `none` when a boundary lookup is out of the mapping's range. -/
def remapStep (tp : List Nat) (eStart refStart refEnd : Nat)
    (seq : List Char) (conf : List Nat) (vars : List Variant) :
    Option (List Char × List Nat × List Variant) :=
  match tp[refStart - eStart]?, tp[refEnd - eStart]? with
  | some cssStart, some cssEnd =>
      some (pySlice seq cssStart cssEnd, pySlice conf cssStart cssEnd,
            vars.filter (fun v => decide (refStart ≤ v.refStart ∧ v.refStart < refEnd)))
  | _, _ => none

/-- Unit of dispatch: a window plus a coverage flag. -/
structure WorkChunk where
  winId : Nat
  winStart : Nat
  winEnd : Nat
  hasCoverage : Bool
deriving DecidableEq

/-- Run-wide options consumed by `onChunk`. -/
structure RunOptions where
  fancyChunking : Bool
  referenceChunkOverlap : Nat
deriving DecidableEq

/-- Per-chunk entry point `ArrowWorker.onChunk` (arrow.py lines 132-180).
The two trailing numbers count consensus-engine and aligner invocations
(the aligner runs once per real sub-consensus inside variant calling and
once for the remap). -/
def onChunk (env : Env) (cfg : ArrowConfig) (opts : RunOptions)
    (chunk : WorkChunk) :
    Option ((Nat × Nat × Nat) × (Consensus × List Variant) × Nat × Nat) :=
  let refId := chunk.winId
  let refStart := chunk.winStart
  let refEnd := chunk.winEnd
  let refSeqInWindow := pySlice (env.contig refId) refStart refEnd
  if chunk.hasCoverage = false then
    some ((refId, refStart, refEnd),
          (noCallConsensus cfg.noEvidenceConsensus refId refStart refEnd
             refSeqInWindow, []),
          0, 0)
  else
    let contig := env.contig refId
    let ew := enlargedWindow opts.referenceChunkOverlap contig.length
      refStart refEnd
    let eStart := ew.1
    let eEnd := ew.2
    let refSeqInEnlarged := pySlice contig eStart eEnd
    let r := consensusAndVariantsForWindow env cfg opts.fancyChunking
      refId eStart eEnd contig
    let css := r.1
    let tp := env.tqp refSeqInEnlarged css.sequence
    (remapStep tp eStart refStart refEnd css.sequence css.confidence r.2.1).map
      (fun out =>
        ((refId, refStart, refEnd),
         (⟨refId, refStart, refEnd, out.1, out.2.1⟩, out.2.2),
         r.2.2, r.2.2 + 1))

/-- Read-group metadata: chemistry plus available base features. -/
structure ReadGroup where
  chemistry : String
  baseFeatures : List String
deriving DecidableEq

/-- Alignment-file metadata consumed by `configure`. -/
structure AlnFileMeta where
  readType : String
  sequencingChemistry : List String
  readGroupTable : List ReadGroup
deriving DecidableEq

/-- Options consumed by `configure` (arrow.py lines 202-253). -/
structure CfgOptions where
  diploid : Bool
  parametersFile : Option String
  parametersSpec : String
  minMapQV : Nat
  noEvidenceConsensusCall : NoEvidencePolicy
  fastMode : Bool
  minReadScore : Nat
  minHqRegionSnr : Nat
  minZScore : Int
  minAccuracy : Nat
  maskRadius : Nat
  maskErrorRate : Nat
deriving DecidableEq

/-- Model-loading interface of the external consensus-core library. -/
structure ModelStore where
  loadModels : String → Bool
  overrideModel : String → Bool
  supportedChemistries : List String

/-- Feature check of one read group (arrow.py lines 236-240): every
chemistry other than P6-C4 and S/P1-C1/beta requires the Ipd and
PulseWidth base features. -/
def rgFeatureOK (rg : ReadGroup) : Bool :=
  if rg.chemistry = "P6-C4" ∨ rg.chemistry = "S/P1-C1/beta" then true
  else rg.baseFeatures.contains "Ipd" && rg.baseFeatures.contains "PulseWidth"

/-- ArrowConfig value built from the options (arrow.py lines 244-253);
`minPoaCoverage` keeps the model default of 3. -/
def mkArrowConfig (opts : CfgOptions) : ArrowConfig :=
  ⟨opts.minMapQV, opts.noEvidenceConsensusCall, !opts.fastMode,
   opts.minReadScore, opts.minHqRegionSnr, opts.minZScore,
   opts.minAccuracy, opts.maskRadius, opts.maskErrorRate,
   opts.diploid, 3⟩

/-- Plugin `configure` entry point (arrow.py lines 202-253): validate the
read type, load or override models, check chemistries and base features,
and either abort with an error or return the ArrowConfig. -/
def configure (cc : ModelStore) (opts : CfgOptions) (aln : AlnFileMeta) :
    Except String ArrowConfig :=
  if aln.readType ≠ "standard" then
    Except.error "The Arrow algorithm requires a BAM file containing standard reads."
  else if (match opts.parametersFile with
           | some p => !cc.loadModels p
           | none => false) then
    Except.error "Arrow: unable to load parameters from file."
  else if opts.parametersSpec ≠ "auto" ∧ !cc.overrideModel opts.parametersSpec then
    Except.error "Arrow: unable to override model."
  else if opts.parametersSpec = "auto" ∧
      (aln.sequencingChemistry.any
        (fun ch => !cc.supportedChemistries.contains ch)) then
    Except.error "Arrow: unsupported chemistries found."
  else if !aln.readGroupTable.all rgFeatureOK then
    Except.error "Arrow model requires missing base feature: IPD or PulseWidth"
  else
    Except.ok (mkArrowConfig opts)

/-- Ordered-interval invariant: each interval is nonempty, lies within
`[cur, e]`, and starts no earlier than the end of its predecessor. -/
def okList (e : Nat) : Nat → List (Nat × Nat) → Prop
  | _, [] => True
  | cur, (a, b) :: r => cur ≤ a ∧ a < b ∧ b ≤ e ∧ okList e b r

/-- Validity of a `configure` input: standard read type, loadable
parameter file, honoured model override, supported chemistries and
complete base features. -/
def validConfigureInput (cc : ModelStore) (opts : CfgOptions)
    (aln : AlnFileMeta) : Prop :=
  aln.readType = "standard" ∧
  (∀ p, opts.parametersFile = some p → cc.loadModels p = true) ∧
  (opts.parametersSpec ≠ "auto" → cc.overrideModel opts.parametersSpec = true) ∧
  (opts.parametersSpec = "auto" →
    ∀ ch ∈ aln.sequencingChemistry, ch ∈ cc.supportedChemistries) ∧
  (∀ rg ∈ aln.readGroupTable, rgFeatureOK rg = true)

/-- Small reference contig used in concrete evaluations. -/
def contigACGT : List Char := ['A', 'C', 'G', 'T']

/-- Concrete environment with no reads at all. -/
def envNoReads : Env :=
  ⟨fun _ => contigACGT,
   fun _ _ _ => [],
   fun _ _ _ l => l,
   fun _ _ _ _ _ => ([], []),
   fun _ _ _ _ _ _ => [],
   fun _ _ => []⟩

/-- Concrete environment with one spanning read, an engine emitting an
ambiguous base, one variant and an identity position mapping. -/
def envRich : Env :=
  ⟨fun _ => contigACGT,
   fun _ _ _ => [⟨0, 4⟩],
   fun _ _ _ l => l,
   fun _ _ _ _ _ => (['A', 'R'], [1, 1]),
   fun _ _ _ _ _ _ => [⟨1, 2⟩],
   fun r _ => List.range (r.length + 1)⟩

/-- Concrete haploid configuration with a POA coverage threshold of 1. -/
def cfgA : ArrowConfig :=
  ⟨10, NoEvidencePolicy.nocall, true, 0, 0, 0, 0, 0, 0, false, 1⟩

/-- Concrete diploid configuration with a POA coverage threshold of 1. -/
def cfgDip : ArrowConfig :=
  ⟨10, NoEvidencePolicy.nocall, true, 0, 0, 0, 0, 0, 0, true, 1⟩

/-- Concrete run options: plain chunking, no overlap. -/
def optsPlain : RunOptions := ⟨false, 0⟩

/-- C10: with fancy chunking disabled, `consensusAndVariantsForWindow`
performs no coverage partitioning at all: the interval list is the whole
window as a single interval, regardless of the read coordinates. -/
theorem allIntervals_plainChunking (s e k : Nat) (starts ends : List Nat) :
    allIntervalsForWindow false s e k starts ends = [(s, e)] := rfl

/-- C2: a WorkChunk without coverage yields a single no-call consensus
spanning the whole requested window, an empty variant list, and zero
consensus-engine and aligner invocations. -/
theorem onChunk_noCoverage (env : Env) (cfg : ArrowConfig)
    (opts : RunOptions) (chunk : WorkChunk)
    (h : chunk.hasCoverage = false) :
    onChunk env cfg opts chunk =
      some ((chunk.winId, chunk.winStart, chunk.winEnd),
            (noCallConsensus cfg.noEvidenceConsensus chunk.winId
               chunk.winStart chunk.winEnd
               (pySlice (env.contig chunk.winId) chunk.winStart chunk.winEnd),
             []),
            0, 0) := by
  unfold onChunk
  rw [h]
  simp

/-- Witness for C2 at a concrete chunk. -/
theorem onChunk_noCoverage_witness :
    onChunk envNoReads cfgA optsPlain ⟨0, 0, 4, false⟩ =
      some ((0, 0, 4),
            (noCallConsensus NoEvidencePolicy.nocall 0 0 4
               (pySlice contigACGT 0 4), []),
            0, 0) :=
  onChunk_noCoverage envNoReads cfgA optsPlain ⟨0, 0, 4, false⟩ rfl

/-- C3: a sub-interval whose spanning-read count is below the POA
coverage threshold is answered without invoking the consensus engine, by
a no-call consensus with all-zero confidence and placeholder length
equal to the interval length, contributing no variants. -/
theorem processInterval_lowCoverage (env : Env) (cfg : ArrowConfig)
    (winId : Nat) (contig : List Char) (s e : Nat)
    (h : spanningCount env winId s e < cfg.minPoaCoverage)
    (he : e ≤ contig.length) :
    processInterval env cfg winId contig (s, e) =
      (noCallConsensus cfg.noEvidenceConsensus winId s e (pySlice contig s e),
       [], false) ∧
    (∀ q ∈ (noCallConsensus cfg.noEvidenceConsensus winId s e
        (pySlice contig s e)).confidence, q = 0) ∧
    (noCallConsensus cfg.noEvidenceConsensus winId s e
        (pySlice contig s e)).sequence.length = e - s := by
  have hslice : (pySlice contig s e).length = e - s := by
    simp only [pySlice, List.length_drop, List.length_take]
    omega
  refine ⟨?_, ?_, ?_⟩
  · have hn : ¬ cfg.minPoaCoverage ≤ spanningCount env winId s e :=
      Nat.not_le.mpr h
    simp [processInterval, hn]
  · intro q hq
    simp only [noCallConsensus] at hq
    exact List.eq_of_mem_replicate hq
  · cases hp : cfg.noEvidenceConsensus <;>
      simp [noCallConsensus, noCallSequence, hslice]

/-- Witness for C3 at a concrete no-read environment. -/
theorem processInterval_lowCoverage_witness :
    processInterval envNoReads cfgA 0 contigACGT (0, 4) =
      (noCallConsensus NoEvidencePolicy.nocall 0 0 4 (pySlice contigACGT 0 4),
       [], false) :=
  (processInterval_lowCoverage envNoReads cfgA 0 contigACGT 0 4
    (by decide) (by decide)).1

/-- C8: when the enlarged window equals the requested window, the remap
step returns the consensus sequence, confidence array and variant list
unchanged, provided the aligner's global position mapping sends the
first target position to 0 and the last to the consensus length and the
variants already lie in the window. -/
theorem remapStep_noEnlargement (ov cl s e : Nat) (tp : List Nat)
    (seq : List Char) (conf : List Nat) (vars : List Variant)
    (hE : enlargedWindow ov cl s e = (s, e))
    (h0 : tp[(0 : Nat)]? = some 0)
    (hL : tp[e - s]? = some seq.length)
    (hconf : conf.length = seq.length)
    (hvars : ∀ v ∈ vars, s ≤ v.refStart ∧ v.refStart < e) :
    remapStep tp (enlargedWindow ov cl s e).1 s e seq conf vars =
      some (seq, conf, vars) := by
  have hs : (enlargedWindow ov cl s e).1 = s := by rw [hE]
  rw [hs]
  unfold remapStep
  rw [Nat.sub_self, h0, hL]
  have hseq : pySlice seq 0 seq.length = seq := by
    simp [pySlice]
  have hcf : pySlice conf 0 seq.length = conf := by
    simp [pySlice, List.take_of_length_le (Nat.le_of_eq hconf)]
  have hfl : vars.filter
      (fun v => decide (s ≤ v.refStart ∧ v.refStart < e)) = vars := by
    apply List.filter_eq_self.mpr
    intro v hv
    exact decide_eq_true (hvars v hv)
  simp [hseq, hcf, hfl]
  exact hvars

/-- Witness for C8 at a concrete window and mapping. -/
theorem remapStep_noEnlargement_witness :
    remapStep [0, 1, 2, 3, 4] (enlargedWindow 0 4 0 4).1 0 4
      ['A', 'C', 'G', 'T'] [9, 9, 9, 9] [⟨2, 3⟩] =
      some (['A', 'C', 'G', 'T'], [9, 9, 9, 9], [⟨2, 3⟩]) :=
  remapStep_noEnlargement 0 4 0 4 [0, 1, 2, 3, 4]
    ['A', 'C', 'G', 'T'] [9, 9, 9, 9] [⟨2, 3⟩]
    (by decide) (by decide) (by decide) (by decide) (by decide)

/-- C4: when the target boundaries lie inside the enlarged window and
the aligner's target-to-query mapping covers every position of the
enlarged window, the remap of `onChunk` resolves both boundaries to the
mapped positions the alignment determines and always produces a result;
it never fails on the window. -/
theorem remapStep_total (tp : List Nat) (eStart eEnd refStart refEnd : Nat)
    (seq : List Char) (conf : List Nat) (vars : List Variant)
    (hlen : tp.length = eEnd - eStart + 1)
    (h1 : eStart ≤ refStart) (h2 : refStart ≤ refEnd) (h3 : refEnd ≤ eEnd) :
    ∃ cssStart cssEnd,
      tp[refStart - eStart]? = some cssStart ∧
      tp[refEnd - eStart]? = some cssEnd ∧
      remapStep tp eStart refStart refEnd seq conf vars =
        some (pySlice seq cssStart cssEnd, pySlice conf cssStart cssEnd,
              vars.filter (fun v =>
                decide (refStart ≤ v.refStart ∧ v.refStart < refEnd))) := by
  have hi1 : refStart - eStart < tp.length := by omega
  have hi2 : refEnd - eStart < tp.length := by omega
  refine ⟨tp.get ⟨refStart - eStart, hi1⟩, tp.get ⟨refEnd - eStart, hi2⟩,
    ?_, ?_, ?_⟩
  · simp [List.getElem?_eq_getElem hi1]
  · simp [List.getElem?_eq_getElem hi2]
  · unfold remapStep
    rw [List.getElem?_eq_getElem hi1, List.getElem?_eq_getElem hi2]
    simp

/-- Witness for C4 at a concrete mapping. -/
theorem remapStep_total_witness :
    (remapStep [0, 1, 2] 0 0 2 ['A', 'C'] [5, 6] []).isSome = true := by
  obtain ⟨a, b, h1, h2, h3⟩ :=
    remapStep_total [0, 1, 2] 0 2 0 2 ['A', 'C'] [5, 6] []
      (by decide) (by decide) (by decide) (by decide)
  rw [h3]
  rfl

/-- Variants surviving a successful remap are exactly the in-window
filter of the pre-remap variants. -/
theorem remapStep_some_vars (tp : List Nat) (eS rS rE : Nat)
    (seq : List Char) (conf : List Nat) (vars : List Variant)
    (out : List Char × List Nat × List Variant)
    (h : remapStep tp eS rS rE seq conf vars = some out) :
    out.2.2 = vars.filter
      (fun v => decide (rS ≤ v.refStart ∧ v.refStart < rE)) := by
  unfold remapStep at h
  cases h1 : tp[rS - eS]? with
  | none => rw [h1] at h; simp at h
  | some a =>
    cases h2 : tp[rE - eS]? with
    | none => rw [h1, h2] at h; simp at h
    | some b =>
      rw [h1, h2] at h
      have h3 := Option.some.inj h
      rw [← h3]

/-- C5: in the coverage case, every variant returned by `onChunk` has
its reference start inside the half-open requested window. -/
theorem onChunk_variants_in_window (env : Env) (cfg : ArrowConfig)
    (opts : RunOptions) (chunk : WorkChunk)
    (res : (Nat × Nat × Nat) × (Consensus × List Variant) × Nat × Nat)
    (hc : chunk.hasCoverage = true)
    (h : onChunk env cfg opts chunk = some res) :
    ∀ v ∈ res.2.1.2,
      chunk.winStart ≤ v.refStart ∧ v.refStart < chunk.winEnd := by
  intro v hv
  unfold onChunk at h
  rw [hc] at h
  simp only [Bool.true_eq_false, if_false, Option.map_eq_some'] at h
  obtain ⟨out, hout, hres⟩ := h
  have hvarsEq := remapStep_some_vars _ _ _ _ _ _ _ _ hout
  rw [← hres] at hv
  simp only at hv
  rw [hvarsEq] at hv
  have := List.of_mem_filter hv
  exact of_decide_eq_true this

/-- Witness for C5 at a concrete chunk whose result carries one
variant. -/
theorem onChunk_variants_in_window_witness :
    (0 : Nat) ≤ 1 ∧ (1 : Nat) < 4 :=
  onChunk_variants_in_window envRich cfgA optsPlain ⟨0, 0, 4, true⟩
    ((0, 0, 4), (⟨0, 0, 4, ['A', 'R'], [1, 1]⟩, [⟨1, 2⟩]), 1, 2)
    rfl rfl ⟨1, 2⟩ (by decide)

/-- Sequence of a stitched fold: the sequences concatenate in order. -/
theorem foldl_joinStep_sequence (cs : List Consensus) (c : Consensus) :
    (cs.foldl joinStep c).sequence =
      c.sequence ++ (cs.map Consensus.sequence).flatten := by
  induction cs generalizing c with
  | nil => simp
  | cons d cs ih =>
    simp only [List.foldl_cons, List.map_cons, List.flatten_cons]
    rw [ih]
    simp [joinStep, List.append_assoc]

/-- Window start of a stitched fold: the fold of `min`. -/
theorem foldl_joinStep_winStart (cs : List Consensus) (c : Consensus) :
    (cs.foldl joinStep c).winStart =
      (cs.map Consensus.winStart).foldl min c.winStart := by
  induction cs generalizing c with
  | nil => rfl
  | cons d cs ih =>
    simp only [List.foldl_cons, List.map_cons]
    rw [ih]
    rfl

/-- Window end of a stitched fold: the fold of `max`. -/
theorem foldl_joinStep_winEnd (cs : List Consensus) (c : Consensus) :
    (cs.foldl joinStep c).winEnd =
      (cs.map Consensus.winEnd).foldl max c.winEnd := by
  induction cs generalizing c with
  | nil => rfl
  | cons d cs ih =>
    simp only [List.foldl_cons, List.map_cons]
    rw [ih]
    rfl

/-- Lower bounds of a `min` fold. -/
theorem foldl_min_le (xs : List Nat) (a : Nat) :
    xs.foldl min a ≤ a ∧ ∀ x ∈ xs, xs.foldl min a ≤ x := by
  induction xs generalizing a with
  | nil => exact ⟨Nat.le_refl a, by intro x hx; cases hx⟩
  | cons x xs ih =>
    obtain ⟨h1, h2⟩ := ih (min a x)
    refine ⟨Nat.le_trans h1 (Nat.min_le_left a x), ?_⟩
    intro y hy
    cases hy with
    | head => exact Nat.le_trans h1 (Nat.min_le_right a x)
    | tail _ hmem => exact h2 y hmem

/-- Membership of a `min` fold. -/
theorem foldl_min_mem (xs : List Nat) (a : Nat) :
    xs.foldl min a = a ∨ xs.foldl min a ∈ xs := by
  induction xs generalizing a with
  | nil => exact Or.inl rfl
  | cons x xs ih =>
    rcases ih (min a x) with h | h
    · rcases min_choice a x with hm | hm
      · exact Or.inl (by rw [List.foldl_cons, h, hm])
      · exact Or.inr (by rw [List.foldl_cons, h, hm]; exact List.mem_cons_self x xs)
    · exact Or.inr (List.mem_cons_of_mem x h)

/-- Upper bounds of a `max` fold. -/
theorem foldl_max_ge (xs : List Nat) (a : Nat) :
    a ≤ xs.foldl max a ∧ ∀ x ∈ xs, x ≤ xs.foldl max a := by
  induction xs generalizing a with
  | nil => exact ⟨Nat.le_refl a, by intro x hx; cases hx⟩
  | cons x xs ih =>
    obtain ⟨h1, h2⟩ := ih (max a x)
    refine ⟨Nat.le_trans (Nat.le_max_left a x) h1, ?_⟩
    intro y hy
    cases hy with
    | head => exact Nat.le_trans (Nat.le_max_right a x) h1
    | tail _ hmem => exact h2 y hmem

/-- Membership of a `max` fold. -/
theorem foldl_max_mem (xs : List Nat) (a : Nat) :
    xs.foldl max a = a ∨ xs.foldl max a ∈ xs := by
  induction xs generalizing a with
  | nil => exact Or.inl rfl
  | cons x xs ih =>
    rcases ih (max a x) with h | h
    · rcases max_choice a x with hm | hm
      · exact Or.inl (by rw [List.foldl_cons, h, hm])
      · exact Or.inr (by rw [List.foldl_cons, h, hm]; exact List.mem_cons_self x xs)
    · exact Or.inr (List.mem_cons_of_mem x h)

/-- C6: stitching a nonempty ordered list of sub-consensi yields a
sequence whose length is the sum of the sub-consensus sequence lengths,
on a window spanning the least start and the greatest end of the
inputs. -/
theorem join_concat_invariant (l : List Consensus) (h : l ≠ []) :
    (join l).sequence.length = (l.map (fun c => c.sequence.length)).sum ∧
    ((join l).winStart ∈ l.map Consensus.winStart ∧
      ∀ c ∈ l, (join l).winStart ≤ c.winStart) ∧
    ((join l).winEnd ∈ l.map Consensus.winEnd ∧
      ∀ c ∈ l, c.winEnd ≤ (join l).winEnd) := by
  cases l with
  | nil => exact absurd rfl h
  | cons c cs =>
    have hj : join (c :: cs) = cs.foldl joinStep c := rfl
    refine ⟨?_, ⟨?_, ?_⟩, ⟨?_, ?_⟩⟩
    · rw [hj, foldl_joinStep_sequence]
      simp [Function.comp_def]
    · rw [hj, foldl_joinStep_winStart]
      rcases foldl_min_mem (cs.map Consensus.winStart) c.winStart with hm | hm
      · rw [hm]; simp
      · simp only [List.map_cons]
        exact List.mem_cons_of_mem _ hm
    · intro d hd
      rw [hj, foldl_joinStep_winStart]
      cases hd with
      | head => exact (foldl_min_le _ _).1
      | tail _ hmem =>
          exact (foldl_min_le _ _).2 d.winStart
            (List.mem_map_of_mem Consensus.winStart hmem)
    · rw [hj, foldl_joinStep_winEnd]
      rcases foldl_max_mem (cs.map Consensus.winEnd) c.winEnd with hm | hm
      · rw [hm]; simp
      · simp only [List.map_cons]
        exact List.mem_cons_of_mem _ hm
    · intro d hd
      rw [hj, foldl_joinStep_winEnd]
      cases hd with
      | head => exact (foldl_max_ge _ _).1
      | tail _ hmem =>
          exact (foldl_max_ge _ _).2 d.winEnd
            (List.mem_map_of_mem Consensus.winEnd hmem)

/-- Witness for C6 on a concrete two-element stitch. -/
theorem join_concat_invariant_witness :
    (join [⟨0, 0, 2, ['A', 'C'], [1, 1]⟩, ⟨0, 2, 4, ['G'], [2]⟩]).sequence.length =
      ([⟨0, 0, 2, ['A', 'C'], [1, 1]⟩, ⟨0, 2, 4, ['G'], [2]⟩].map
        (fun c : Consensus => c.sequence.length)).sum :=
  (join_concat_invariant
    [⟨0, 0, 2, ['A', 'C'], [1, 1]⟩, ⟨0, 2, 4, ['G'], [2]⟩] (by decide)).1

/-- Representative bases of ambiguity codes are never ambiguous. -/
theorem repBase_not_ambig (c : Char) (h : isAmbig c = true) :
    isAmbig (repBase c) = false := by
  have hm : c ∈ ambigChars := by
    simp only [isAmbig] at h
    exact List.elem_iff.mp h
  fin_cases hm <;> decide

/-- Cleaned sequences carry no ambiguity code. -/
theorem cleanSeq_not_ambig (s : List Char) :
    ∀ ch ∈ cleanSeq s, isAmbig ch = false := by
  intro ch hch
  simp only [cleanSeq, List.mem_map] at hch
  obtain ⟨c, _, hc⟩ := hch
  by_cases hA : isAmbig c = true
  · rw [if_pos hA] at hc
    rw [← hc]
    exact repBase_not_ambig c hA
  · rw [if_neg hA] at hc
    rw [← hc]
    exact Bool.eq_false_iff.mpr hA

/-- Elements of a Python slice come from the sliced list. -/
theorem pySlice_subset {α : Type} (l : List α) (s e : Nat) :
    ∀ x ∈ pySlice l s e, x ∈ l := by
  intro x hx
  exact ((List.drop_sublist s (l.take e)).trans (List.take_sublist e l)).subset hx

/-- No-call placeholders over plain reference characters carry no
ambiguity code. -/
theorem noCall_not_ambig (policy : NoEvidencePolicy) (winId s e : Nat)
    (refSeq : List Char)
    (href : ∀ c ∈ refSeq,
      c = 'A' ∨ c = 'C' ∨ c = 'G' ∨ c = 'T' ∨ c = 'N') :
    ∀ ch ∈ (noCallConsensus policy winId s e refSeq).sequence,
      isAmbig ch = false := by
  intro ch hch
  simp only [noCallConsensus] at hch
  cases policy with
  | nocall =>
    simp only [noCallSequence] at hch
    rw [List.eq_of_mem_replicate hch]
    decide
  | reference =>
    simp only [noCallSequence] at hch
    rcases href ch hch with rfl | rfl | rfl | rfl | rfl <;> decide
  | lowercasereference =>
    simp only [noCallSequence, List.mem_map] at hch
    obtain ⟨c, hc, rfl⟩ := hch
    rcases href c hc with rfl | rfl | rfl | rfl | rfl <;> decide

/-- Characters of a stitched consensus come from some sub-consensus. -/
theorem mem_join_sequence (l : List Consensus) (ch : Char)
    (h : ch ∈ (join l).sequence) : ∃ c ∈ l, ch ∈ c.sequence := by
  cases l with
  | nil => simp [join] at h
  | cons c cs =>
    rw [show join (c :: cs) = cs.foldl joinStep c from rfl,
        foldl_joinStep_sequence] at h
    rcases List.mem_append.mp h with h | h
    · exact ⟨c, List.mem_cons_self c cs, h⟩
    · rcases List.mem_flatten.mp h with ⟨sq, hsq, hch⟩
      rcases List.mem_map.mp hsq with ⟨d, hd, rfl⟩
      exact ⟨d, List.mem_cons_of_mem c hd, hch⟩

/-- With diploid polishing on, the sub-consensus built for any interval
carries no ambiguity code, over a plain reference contig. -/
theorem processInterval_diploid_not_ambig (env : Env) (cfg : ArrowConfig)
    (winId : Nat) (contig : List Char) (iv : Nat × Nat)
    (hd : cfg.polishDiploid = true)
    (href : ∀ c ∈ contig,
      c = 'A' ∨ c = 'C' ∨ c = 'G' ∨ c = 'T' ∨ c = 'N') :
    ∀ ch ∈ (processInterval env cfg winId contig iv).1.sequence,
      isAmbig ch = false := by
  obtain ⟨s, e⟩ := iv
  intro ch hch
  by_cases hcov : cfg.minPoaCoverage ≤ spanningCount env winId s e
  · simp only [processInterval, if_pos hcov, hd, if_true] at hch
    exact cleanSeq_not_ambig _ ch hch
  · simp only [processInterval, if_neg hcov] at hch
    exact noCall_not_ambig cfg.noEvidenceConsensus winId s e
      (pySlice contig s e)
      (fun c hc => href c (pySlice_subset contig s e c hc)) ch hch

/-- C7: with diploid polishing enabled, the consensus sequence stored on
every sub-consensus and hence on the joined window consensus contains no
IUPAC ambiguity code, whatever ambiguous bases the engine's nascent
consensus contains, over a plain reference contig. -/
theorem consensus_diploid_no_ambiguity (env : Env) (cfg : ArrowConfig)
    (fancy : Bool) (winId wS wE : Nat) (contig : List Char)
    (hd : cfg.polishDiploid = true)
    (href : ∀ c ∈ contig,
      c = 'A' ∨ c = 'C' ∨ c = 'G' ∨ c = 'T' ∨ c = 'N') :
    ∀ ch ∈ (consensusAndVariantsForWindow env cfg fancy
        winId wS wE contig).1.sequence,
      isAmbig ch = false := by
  intro ch hch
  simp only [consensusAndVariantsForWindow] at hch
  obtain ⟨c, hcmem, hchc⟩ := mem_join_sequence _ _ hch
  rcases List.mem_map.mp hcmem with ⟨r, hr, rfl⟩
  rcases List.mem_map.mp hr with ⟨iv, _, rfl⟩
  exact processInterval_diploid_not_ambig env cfg winId contig iv hd href
    ch hchc

/-- Witness for C7: the engine emits an ambiguous base R, the exported
consensus keeps none. -/
theorem consensus_diploid_no_ambiguity_witness : isAmbig 'A' = false :=
  consensus_diploid_no_ambiguity envRich cfgDip false 0 0 4 contigACGT
    rfl (by decide) 'A' (by decide)

/-- Outcome shape of `configure`: an error or the config built from the
options. -/
theorem configure_cases (cc : ModelStore) (opts : CfgOptions)
    (aln : AlnFileMeta) :
    (∃ m, configure cc opts aln = Except.error m) ∨
      configure cc opts aln = Except.ok (mkArrowConfig opts) := by
  unfold configure
  split_ifs <;> simp

/-- C9: `configure` succeeds exactly on valid inputs (standard read
type, loadable parameter file, honoured override, supported chemistries,
complete base features), returning the ArrowConfig built from the
options; on every invalid input it aborts with an error before any
window is processed. -/
theorem configure_ok_iff_valid (cc : ModelStore) (opts : CfgOptions)
    (aln : AlnFileMeta) :
    (configure cc opts aln = Except.ok (mkArrowConfig opts) ↔
      validConfigureInput cc opts aln) ∧
    (¬ validConfigureInput cc opts aln →
      ∃ m, configure cc opts aln = Except.error m) := by
  have main : configure cc opts aln = Except.ok (mkArrowConfig opts) ↔
      validConfigureInput cc opts aln := by
    unfold configure validConfigureInput
    constructor
    · intro h
      split_ifs at h with h1 h2 h3 h4 h5
      all_goals try simp at h
      refine ⟨by simpa using h1, ?_, ?_, ?_, ?_⟩
      · intro p hp
        rw [hp] at h2
        simpa using h2
      · intro hspec
        by_contra hov
        exact h3 ⟨hspec, by simp [Bool.eq_false_iff.mpr hov]⟩
      · intro hspec ch hch
        by_contra hsup
        refine h4 ⟨hspec, ?_⟩
        refine List.any_eq_true.mpr ⟨ch, hch, ?_⟩
        simp only [Bool.not_eq_true']
        exact Bool.eq_false_iff.mpr
          (fun hcon => hsup (List.elem_iff.mp hcon))
      · intro rg hrg
        have hall : aln.readGroupTable.all rgFeatureOK = true := by
          by_contra hno
          exact h5 (by simp [Bool.eq_false_iff.mpr hno])
        exact List.all_eq_true.mp hall rg hrg
    · rintro ⟨v1, v2, v3, v4, v5⟩
      split_ifs with h1 h2 h3 h4 h5
      · exact absurd v1 h1
      · exfalso
        cases hpf : opts.parametersFile with
        | none => rw [hpf] at h2; simp at h2
        | some p =>
          rw [hpf] at h2
          have := v2 p hpf
          simp [this] at h2
      · exact absurd (v3 h3.1) (by simpa using h3.2)
      · exfalso
        obtain ⟨hspec, hany⟩ := h4
        obtain ⟨ch, hch, hbad⟩ := List.any_eq_true.mp hany
        have hmem := v4 hspec ch hch
        simp only [Bool.not_eq_true'] at hbad
        have hcne : cc.supportedChemistries.contains ch = true :=
          List.elem_iff.mpr hmem
        rw [hcne] at hbad
        simp at hbad
      · exact absurd (List.all_eq_true.mpr v5) (by simpa using h5)
      · rfl
  refine ⟨main, ?_⟩
  intro hnv
  rcases configure_cases cc opts aln with h | h
  · exact h
  · exact absurd (main.mp h) hnv

/-- Witness for C9: a valid concrete input yields the config. -/
theorem configure_ok_iff_valid_witness :
    configure ⟨fun _ => true, fun _ => true, ["S/P2-C2/5.0"]⟩
      ⟨false, none, "auto", 10, NoEvidencePolicy.nocall, false,
        0, 0, 0, 0, 0, 0⟩
      ⟨"standard", ["S/P2-C2/5.0"],
        [⟨"S/P2-C2/5.0", ["Ipd", "PulseWidth"]⟩]⟩ =
      Except.ok (mkArrowConfig
        ⟨false, none, "auto", 10, NoEvidencePolicy.nocall, false,
          0, 0, 0, 0, 0, 0⟩) :=
  (configure_ok_iff_valid _ _ _).1.mpr
    (by
      refine ⟨rfl, ?_, ?_, ?_, ?_⟩
      · intro p hp; cases hp
      · intro hs; exact rfl
      · intro _ ch hch; simpa using hch
      · intro rg hrg
        simp only [List.mem_singleton] at hrg
        rw [hrg]
        decide)

/-- Weakening of the left bound of `okList`. -/
theorem okList_mono_start (e : Nat) (l : List (Nat × Nat)) :
    ∀ cur cur', cur ≤ cur' → okList e cur' l → okList e cur l := by
  cases l with
  | nil => intro _ _ _ _; trivial
  | cons p r =>
    obtain ⟨a, b⟩ := p
    intro cur cur' hle h
    obtain ⟨h1, h2, h3, h4⟩ := h
    exact ⟨Nat.le_trans hle h1, h2, h3, h4⟩

/-- Bounds of the members of an `okList` interval list. -/
theorem okList_bounds (e : Nat) (l : List (Nat × Nat)) :
    ∀ cur, okList e cur l →
      ∀ iv ∈ l, cur ≤ iv.1 ∧ iv.1 < iv.2 ∧ iv.2 ≤ e := by
  induction l with
  | nil => intro _ _ iv hiv; cases hiv
  | cons p r ih =>
    obtain ⟨a, b⟩ := p
    intro cur h iv hiv
    obtain ⟨h1, h2, h3, h4⟩ := h
    cases hiv with
    | head => exact ⟨h1, h2, h3⟩
    | tail _ hmem =>
      have := ih b h4 iv hmem
      exact ⟨Nat.le_trans h1 (Nat.le_trans (Nat.le_of_lt h2) this.1),
             this.2.1, this.2.2⟩

/-- Runs produced by the sweep are ordered, nonempty and bounded. -/
theorem runsFrom_okList (p : Nat → Bool) (fuel : Nat) :
    ∀ cur st,
      (match st with | none => True | some x => x < cur) →
      okList (cur + fuel)
        (match st with | none => cur | some x => x)
        (runsFrom p cur fuel st) := by
  induction fuel with
  | zero =>
    intro cur st h
    cases st with
    | none => trivial
    | some x =>
      exact ⟨Nat.le_refl x, h, Nat.le_refl cur, trivial⟩
  | succ fuel ih =>
    intro cur st h
    have harith : cur + (fuel + 1) = (cur + 1) + fuel := by omega
    cases st with
    | none =>
      show okList (cur + (fuel + 1)) cur
        (if p cur then runsFrom p (cur+1) fuel (some cur)
         else runsFrom p (cur+1) fuel none)
      rw [harith]
      by_cases hp : p cur
      · rw [if_pos hp]
        exact ih (cur + 1) (some cur) (Nat.lt_succ_self cur)
      · rw [if_neg hp]
        exact okList_mono_start _ _ cur (cur + 1) (Nat.le_succ cur)
          (ih (cur + 1) none trivial)
    | some x =>
      show okList (cur + (fuel + 1)) x
        (if p cur then runsFrom p (cur+1) fuel (some x)
         else (x, cur) :: runsFrom p (cur+1) fuel none)
      rw [harith]
      by_cases hp : p cur
      · rw [if_pos hp]
        exact ih (cur + 1) (some x) (Nat.lt_succ_of_lt h)
      · rw [if_neg hp]
        refine ⟨Nat.le_refl x, h, by omega, ?_⟩
        exact okList_mono_start _ _ cur (cur + 1) (Nat.le_succ cur)
          (ih (cur + 1) none trivial)

/-- Filtering preserves the ordered-interval invariant. -/
theorem okList_filter (e : Nat) (q : Nat × Nat → Bool)
    (l : List (Nat × Nat)) :
    ∀ cur, okList e cur l → okList e cur (l.filter q) := by
  induction l with
  | nil => intro _ _; trivial
  | cons p r ih =>
    obtain ⟨a, b⟩ := p
    intro cur h
    obtain ⟨h1, h2, h3, h4⟩ := h
    rw [List.filter_cons]
    by_cases hq : q (a, b)
    · rw [if_pos hq]
      exact ⟨h1, h2, h3, ih b h4⟩
    · rw [if_neg hq]
      exact okList_mono_start _ _ cur b (by omega) (ih b h4)

/-- The k-spanned intervals of a window satisfy the ordered-interval
invariant over the window. -/
theorem kSpanned_okList (s e k m : Nat) (starts ends : List Nat)
    (hse : s ≤ e) :
    okList e s (kSpannedIntervals s e k m starts ends) := by
  unfold kSpannedIntervals
  apply okList_filter
  have h := runsFrom_okList (covOK k starts ends) (e - s) s none trivial
  simp only at h
  have : s + (e - s) = e := by omega
  rw [this] at h
  exact h

/-- Bounds of the gap intervals. -/
theorem holesAux_bounds (e : Nat) (l : List (Nat × Nat)) :
    ∀ cur, okList e cur l →
      ∀ iv ∈ holesAux e cur l, cur ≤ iv.1 ∧ iv.1 < iv.2 ∧ iv.2 ≤ e := by
  induction l with
  | nil =>
    intro cur _ iv hiv
    simp only [holesAux] at hiv
    by_cases hce : cur < e
    · rw [if_pos hce] at hiv
      rcases List.mem_singleton.mp hiv with rfl
      exact ⟨Nat.le_refl cur, hce, Nat.le_refl e⟩
    · rw [if_neg hce] at hiv
      cases hiv
  | cons p r ih =>
    obtain ⟨a, b⟩ := p
    intro cur h iv hiv
    obtain ⟨h1, h2, h3, h4⟩ := h
    simp only [holesAux] at hiv
    rcases List.mem_append.mp hiv with hg | hr
    · by_cases hca : cur < a
      · rw [if_pos hca] at hg
        rcases List.mem_singleton.mp hg with rfl
        exact ⟨Nat.le_refl cur, hca, by omega⟩
      · rw [if_neg hca] at hg
        cases hg
    · have := ih b h4 iv hr
      exact ⟨by omega, this.2.1, this.2.2⟩

/-- Tiling of the window by intervals and gaps: a position is covered by
the combined list exactly when it lies in the window. -/
theorem union_ivs_holes (e : Nat) (l : List (Nat × Nat)) :
    ∀ cur, okList e cur l →
      ∀ x, (∃ iv ∈ l ++ holesAux e cur l, iv.1 ≤ x ∧ x < iv.2) ↔
        (cur ≤ x ∧ x < e) := by
  induction l with
  | nil =>
    intro cur _ x
    simp only [List.nil_append, holesAux]
    by_cases hce : cur < e
    · rw [if_pos hce]
      simp
    · rw [if_neg hce]
      simp
      omega
  | cons p r ih =>
    obtain ⟨a, b⟩ := p
    intro cur h x
    obtain ⟨h1, h2, h3, h4⟩ := h
    have ihx := ih b h4 x
    constructor
    · rintro ⟨iv, hiv, hx1, hx2⟩
      simp only [holesAux, List.cons_append, List.mem_cons,
        List.mem_append] at hiv
      rcases hiv with rfl | hr | hg | hh
      · exact ⟨by omega, by omega⟩
      · have hb := okList_bounds e r b h4 iv hr
        have := ihx.mp ⟨iv, List.mem_append.mpr (Or.inl hr), hx1, hx2⟩
        exact ⟨by omega, this.2⟩
      · by_cases hca : cur < a
        · rw [if_pos hca] at hg
          rcases List.mem_singleton.mp hg with rfl
          exact ⟨hx1, by omega⟩
        · rw [if_neg hca] at hg
          cases hg
      · have := ihx.mp ⟨iv, List.mem_append.mpr (Or.inr hh), hx1, hx2⟩
        exact ⟨by omega, this.2⟩
    · rintro ⟨hx1, hx2⟩
      by_cases hxa : x < a
      · refine ⟨(cur, a), ?_, hx1, hxa⟩
        have hca : cur < a := by omega
        simp [holesAux, if_pos hca]
      · by_cases hxb : x < b
        · exact ⟨(a, b), by simp, by omega, hxb⟩
        · obtain ⟨iv, hiv, hp1, hp2⟩ := ihx.mpr ⟨by omega, hx2⟩
          refine ⟨iv, ?_, hp1, hp2⟩
          rcases List.mem_append.mp hiv with hr | hh
          · exact List.mem_cons_of_mem _ (List.mem_append.mpr (Or.inl hr))
          · refine List.mem_cons_of_mem _ (List.mem_append.mpr (Or.inr ?_))
            simp only [holesAux]
            exact List.mem_append.mpr (Or.inr hh)

/-- Interval disjointness relation. -/
theorem nov_symm :
    Symmetric (fun a b : Nat × Nat => a.2 ≤ b.1 ∨ b.2 ≤ a.1) := by
  intro a b h
  rcases h with h | h
  · exact Or.inr h
  · exact Or.inl h

/-- Intervals and gaps of a window are pairwise non-overlapping. -/
theorem pairwise_ivs_holes (e : Nat) (l : List (Nat × Nat)) :
    ∀ cur, okList e cur l →
      List.Pairwise (fun a b => a.2 ≤ b.1 ∨ b.2 ≤ a.1)
        (l ++ holesAux e cur l) := by
  induction l with
  | nil =>
    intro cur _
    simp only [List.nil_append, holesAux]
    by_cases hce : cur < e
    · rw [if_pos hce]
      simp
    · rw [if_neg hce]
      simp
  | cons p r ih =>
    obtain ⟨a, b⟩ := p
    intro cur h
    obtain ⟨h1, h2, h3, h4⟩ := h
    have hbr := okList_bounds e r b h4
    have hbh := holesAux_bounds e r b h4
    simp only [holesAux, List.cons_append]
    refine List.Pairwise.cons ?_ ?_
    · intro iv hiv
      rcases List.mem_append.mp hiv with hr | hgh
      · exact Or.inl (hbr iv hr).1
      · rcases List.mem_append.mp hgh with hg | hh
        · by_cases hca : cur < a
          · rw [if_pos hca] at hg
            rcases List.mem_singleton.mp hg with rfl
            exact Or.inr (Nat.le_refl a)
          · rw [if_neg hca] at hg
            cases hg
        · exact Or.inl (by have := (hbh iv hh).1; omega)
    · have hperm :
          (r ++ ((if cur < a then [(cur, a)] else []) ++ holesAux e b r)).Perm
            ((if cur < a then [(cur, a)] else []) ++ (r ++ holesAux e b r)) := by
        have e1 : r ++ ((if cur < a then [(cur, a)] else []) ++ holesAux e b r) =
            (r ++ (if cur < a then [(cur, a)] else [])) ++ holesAux e b r :=
          (List.append_assoc _ _ _).symm
        have e2 : ((if cur < a then [(cur, a)] else []) ++ r) ++ holesAux e b r =
            (if cur < a then [(cur, a)] else []) ++ (r ++ holesAux e b r) :=
          List.append_assoc _ _ _
        rw [e1, ← e2]
        exact List.Perm.append_right _ List.perm_append_comm
      refine (List.Perm.pairwise_iff (fun h => nov_symm h) hperm).mpr ?_
      refine List.pairwise_append.mpr ⟨?_, ih b h4, ?_⟩
      · by_cases hca : cur < a
        · rw [if_pos hca]
          simp
        · rw [if_neg hca]
          simp
      · intro g hg iv hiv
        by_cases hca : cur < a
        · rw [if_pos hca] at hg
          rcases List.mem_singleton.mp hg with rfl
          rcases List.mem_append.mp hiv with hr | hh
          · exact Or.inl (by have := (hbr iv hr).1; omega)
          · exact Or.inl (by have := (hbh iv hh).1; omega)
        · rw [if_neg hca] at hg
          cases hg

/-- Transitivity of the Python tuple order. -/
theorem lexLe_trans : ∀ a b c : Nat × Nat,
    lexLe a b = true → lexLe b c = true → lexLe a c = true := by
  intro a b c hab hbc
  simp only [lexLe, decide_eq_true_eq] at hab hbc ⊢
  omega

/-- Totality of the Python tuple order. -/
theorem lexLe_total : ∀ a b : Nat × Nat,
    (lexLe a b || lexLe b a) = true := by
  intro a b
  simp only [lexLe, Bool.or_eq_true, decide_eq_true_eq]
  omega

/-- C1: for every window and every set of read start/end coordinates,
the interval list built by `consensusAndVariantsForWindow` under fancy
chunking (the k-spanned intervals plus the complementary coverage gaps,
merged and sorted by start) is sorted by start, pairwise
non-overlapping, and covers exactly the half-open input window. -/
theorem allIntervals_tiling (s e k : Nat) (starts ends : List Nat)
    (hse : s ≤ e) :
    List.Pairwise (fun a b => a.1 ≤ b.1)
      (allIntervalsForWindow true s e k starts ends) ∧
    List.Pairwise (fun a b => a.2 ≤ b.1 ∨ b.2 ≤ a.1)
      (allIntervalsForWindow true s e k starts ends) ∧
    (∀ x, (∃ iv ∈ allIntervalsForWindow true s e k starts ends,
        iv.1 ≤ x ∧ x < iv.2) ↔ (s ≤ x ∧ x < e)) := by
  have hok : okList e s (kSpannedIntervals s e k 10 starts ends) :=
    kSpanned_okList s e k 10 starts ends hse
  have hunfold : allIntervalsForWindow true s e k starts ends =
      (kSpannedIntervals s e k 10 starts ends ++
        holesAux e s (kSpannedIntervals s e k 10 starts ends)).mergeSort
          lexLe := rfl
  rw [hunfold]
  refine ⟨?_, ?_, ?_⟩
  · have hs := @List.sorted_mergeSort (Nat × Nat) lexLe lexLe_trans
      lexLe_total (kSpannedIntervals s e k 10 starts ends ++
        holesAux e s (kSpannedIntervals s e k 10 starts ends))
    refine hs.imp ?_
    intro a b hab
    simp only [lexLe, decide_eq_true_eq] at hab
    omega
  · have hperm := List.mergeSort_perm
      (kSpannedIntervals s e k 10 starts ends ++
        holesAux e s (kSpannedIntervals s e k 10 starts ends)) lexLe
    exact (List.Perm.pairwise_iff (fun h => nov_symm h) hperm).mpr
      (pairwise_ivs_holes e (kSpannedIntervals s e k 10 starts ends) s hok)
  · intro x
    have hmem : ∀ iv : Nat × Nat,
        iv ∈ (kSpannedIntervals s e k 10 starts ends ++
          holesAux e s (kSpannedIntervals s e k 10 starts ends)).mergeSort
            lexLe ↔
        iv ∈ kSpannedIntervals s e k 10 starts ends ++
          holesAux e s (kSpannedIntervals s e k 10 starts ends) :=
      fun iv => List.mem_mergeSort
    constructor
    · rintro ⟨iv, hiv, hx⟩
      exact (union_ivs_holes e (kSpannedIntervals s e k 10 starts ends) s
        hok x).mp ⟨iv, (hmem iv).mp hiv, hx⟩
    · intro hx
      obtain ⟨iv, hiv, hp⟩ :=
        (union_ivs_holes e (kSpannedIntervals s e k 10 starts ends) s
          hok x).mpr hx
      exact ⟨iv, (hmem iv).mpr hiv, hp⟩

/-- Witness for C1 on a concrete window with one covered stretch. -/
theorem allIntervals_tiling_witness :
    ((0 : Nat) ≤ 20) ∧
    ((∃ iv ∈ allIntervalsForWindow true 0 20 1 [0] [12],
        iv.1 ≤ 15 ∧ 15 < iv.2) ↔ ((0 : Nat) ≤ 15 ∧ (15 : Nat) < 20)) :=
  ⟨by decide,
   (allIntervals_tiling 0 20 1 [0] [12] (by decide)).2.2 15⟩
